import Mathlib

/-!
Verification of the conversion core of the clip_app pipeline: the timestamp
utilities (`utils/helpers.py`), the candidate-interval resolver
(`modules/clip_selector.py`), the face-position stabiliser
(`modules/face_tracker.py`), the crop-geometry computation
(`modules/video_processor.py`) and the caption word-window scheduler
(`modules/subtitle_renderer.py`).

Modelling conventions: Python strings are `List Char`, Python floats holding
seconds values are `ℚ` (the claims are about exact arithmetic; every float
operation involved is exact at the relevant inputs), Python `int` is `ℤ`,
Python's `//` and `%` on integers are `Int.ediv`/`Int.emod` (Lean's `/`, `%`),
`int(...)` truncation is `pyInt`, and fallible code is `Option`-valued.
Python's stable `list.sort(key=...)` is modelled by the stable
`List.insertionSort`.
-/

namespace ClipApp

/-- Decimal digit test: `'0' ≤ c ≤ '9'`. -/
def isDig (c : Char) : Bool := '0' ≤ c && c ≤ '9'

/-- Numeric value of a digit character. -/
def digVal (c : Char) : ℕ := c.toNat - 48

/-- Value of a digit string read as a decimal integer. -/
def digitsVal (cs : List Char) : ℕ := cs.foldl (fun acc c => 10 * acc + digVal c) 0

/-- Value of a digit string read as the fractional part after a decimal point. -/
def fracVal (cs : List Char) : ℚ := cs.foldr (fun c acc => ((digVal c : ℚ) + acc) / 10) 0

/-- Unsigned part of Python `float(str)` on a plain decimal literal: digits with
an optional `'.'` and fractional digits, at least one digit overall. -/
def pyFloatCore (cs : List Char) : Option ℚ :=
  let ip := cs.takeWhile isDig
  match cs.dropWhile isDig with
  | [] => if ip.isEmpty then none else some ((digitsVal ip : ℚ))
  | c :: fp =>
    if c = '.' then
      if fp.all isDig && !(ip.isEmpty && fp.isEmpty) then
        some ((digitsVal ip : ℚ) + fracVal fp)
      else none
    else none

/-- Models Python `float(str)` on plain decimal literals (optional sign,
integer digits, optional fractional part); `none` models a raised
`ValueError`.  Exponent, `inf`/`nan`, underscore and whitespace forms do not
occur in the timestamp strings this pipeline produces or consumes. -/
def pyFloat? (s : List Char) : Option ℚ :=
  match s with
  | [] => none
  | c :: rest =>
    if c = '-' then (pyFloatCore rest).map (fun v => -v)
    else if c = '+' then pyFloatCore rest
    else pyFloatCore s

/-- Models Python `str.split(sep)` for a one-character separator: `""` splits
to `[""]`, separators at the ends produce empty groups. -/
def splitOnChar (sep : Char) : List Char → List (List Char)
  | [] => [[]]
  | c :: rest =>
    if c = sep then [] :: splitOnChar sep rest
    else
      match splitOnChar sep rest with
      | [] => [[c]]
      | g :: gs => (c :: g) :: gs

/-- The digit character for `n < 10`. -/
def digChar (n : ℕ) : Char := Char.ofNat (48 + n)

/-- Decimal digits of a natural number, with explicit fuel so that the
definition is structurally recursive (hence kernel-computable). -/
def natCharsAux : ℕ → ℕ → List Char
  | 0, _ => []
  | fuel + 1, n =>
    if n < 10 then [digChar n]
    else natCharsAux fuel (n / 10) ++ [digChar (n % 10)]

/-- Decimal digits of a natural number, as Python's `str(n)`. -/
def natChars (n : ℕ) : List Char := natCharsAux (n + 1) n

/-- Python `str(z)` for an integer. -/
def intChars (z : ℤ) : List Char :=
  if z < 0 then '-' :: natChars z.natAbs else natChars z.toNat

/-- Python `f"{z:02d}"`: pad to width two with a leading zero (the sign counts
toward the width, so negative values are not zero-padded at width two unless
between -9 and -1, where the width is already two). -/
def pad2 (z : ℤ) : List Char :=
  if 0 ≤ z ∧ z < 10 then '0' :: intChars z else intChars z

/-- Python `int(x)` on a rational value: truncation toward zero. -/
def pyInt (q : ℚ) : ℤ := q.num.tdiv q.den

/-- Python 3 `round(x)` to an integer: nearest, ties to even. -/
def pyRound (q : ℚ) : ℤ :=
  if q - ⌊q⌋ < 1 / 2 then ⌊q⌋
  else if 1 / 2 < q - ⌊q⌋ then ⌊q⌋ + 1
  else if ⌊q⌋ % 2 = 0 then ⌊q⌋ else ⌊q⌋ + 1

/-- `utils/helpers.py` `format_timestamp`: seconds to `"HH:MM:SS"` characters.
Python's float `//` and `%` are floor division and floor remainder; the
`int(...)` coercions are applied to nonnegative values (the two remainders)
or to already integral values (`seconds // 3600`), so they are floors. -/
def format_timestamp (seconds : ℚ) : List Char :=
  let hours : ℤ := ⌊seconds / 3600⌋
  let minutes : ℤ := ⌊(seconds - 3600 * (⌊seconds / 3600⌋ : ℚ)) / 60⌋
  let secs : ℤ := ⌊seconds - 60 * (⌊seconds / 60⌋ : ℚ)⌋
  pad2 hours ++ ':' :: pad2 minutes ++ ':' :: pad2 secs

/-- `utils/helpers.py` `parse_timestamp`: split on `':'`; three parts are
`HH:MM:SS`, two parts are `MM:SS`, and otherwise (one part, or four or more
parts) the value is `float(parts[0])`. -/
def parse_timestamp (timestamp : List Char) : Option ℚ :=
  match splitOnChar ':' timestamp with
  | [h, m, s] => do
    let hv ← pyFloat? h
    let mv ← pyFloat? m
    let sv ← pyFloat? s
    pure (hv * 3600 + mv * 60 + sv)
  | [m, s] => do
    let mv ← pyFloat? m
    let sv ← pyFloat? s
    pure (mv * 60 + sv)
  | p :: _ => pyFloat? p
  | [] => none

/-! ### Correctness of the character-level primitives -/

theorem digitsVal_append_singleton (cs : List Char) (c : Char) :
    digitsVal (cs ++ [c]) = 10 * digitsVal cs + digVal c := by
  simp [digitsVal, List.foldl_append]

theorem digChar_isDig {n : ℕ} (h : n < 10) : isDig (digChar n) = true := by
  interval_cases n <;> decide

theorem digVal_digChar {n : ℕ} (h : n < 10) : digVal (digChar n) = n := by
  interval_cases n <;> decide

theorem natCharsAux_spec :
    ∀ (fuel n : ℕ), n < fuel →
      (natCharsAux fuel n).all isDig = true ∧ natCharsAux fuel n ≠ [] ∧
        digitsVal (natCharsAux fuel n) = n := by
  intro fuel
  induction fuel with
  | zero => omega
  | succ fuel ih =>
    intro n hn
    by_cases h : n < 10
    · simp [natCharsAux, h, digitsVal, digChar_isDig h, digVal_digChar h]
    · have hdiv : n / 10 < n := Nat.div_lt_self (by omega) (by omega)
      have ihd := ih (n / 10) (by omega)
      simp only [natCharsAux, if_neg h]
      refine ⟨?_, by simp, ?_⟩
      · simp only [List.all_append, ihd.1, Bool.true_and, List.all_cons, List.all_nil,
          Bool.and_true]
        exact digChar_isDig (Nat.mod_lt _ (by omega))
      · rw [digitsVal_append_singleton, ihd.2.2, digVal_digChar (Nat.mod_lt _ (by omega))]
        omega

theorem natChars_spec (n : ℕ) :
    (natChars n).all isDig = true ∧ natChars n ≠ [] ∧ digitsVal (natChars n) = n :=
  natCharsAux_spec (n + 1) n (by omega)

theorem isDig_ne {c : Char} (h : isDig c = true) :
    c ≠ ':' ∧ c ≠ '-' ∧ c ≠ '+' ∧ c ≠ '.' := by
  refine ⟨?_, ?_, ?_, ?_⟩ <;> rintro rfl <;> simp [isDig] at h

theorem takeWhile_isDig_eq_self {cs : List Char} (h : cs.all isDig = true) :
    cs.takeWhile isDig = cs := by
  induction cs with
  | nil => rfl
  | cons c rest ih =>
    simp only [List.all_cons, Bool.and_eq_true] at h
    simp [List.takeWhile_cons, h.1, ih h.2]

theorem dropWhile_isDig_eq_nil {cs : List Char} (h : cs.all isDig = true) :
    cs.dropWhile isDig = [] := by
  induction cs with
  | nil => rfl
  | cons c rest ih =>
    simp only [List.all_cons, Bool.and_eq_true] at h
    simp [List.dropWhile_cons, h.1, ih h.2]

theorem pyFloatCore_digits {cs : List Char} (hall : cs.all isDig = true) (hne : cs ≠ []) :
    pyFloatCore cs = some ((digitsVal cs : ℚ)) := by
  unfold pyFloatCore
  rw [takeWhile_isDig_eq_self hall, dropWhile_isDig_eq_nil hall]
  simp [List.isEmpty_iff, hne]

theorem pyFloat?_digits {cs : List Char} (hall : cs.all isDig = true) (hne : cs ≠ []) :
    pyFloat? cs = some ((digitsVal cs : ℚ)) := by
  match cs, hne with
  | c :: rest, _ =>
    simp only [List.all_cons, Bool.and_eq_true] at hall
    have hc := isDig_ne hall.1
    rw [pyFloat?, if_neg hc.2.1, if_neg hc.2.2.1]
    exact pyFloatCore_digits (by simp [hall.1, hall.2]) (by simp)

theorem pyFloat?_natChars (n : ℕ) : pyFloat? (natChars n) = some ((n : ℚ)) := by
  obtain ⟨h1, h2, h3⟩ := natChars_spec n
  rw [pyFloat?_digits h1 h2, h3]

theorem pyFloat?_intChars (z : ℤ) : pyFloat? (intChars z) = some ((z : ℚ)) := by
  unfold intChars
  by_cases hz : z < 0
  · rw [if_pos hz]
    obtain ⟨h1, h2, h3⟩ := natChars_spec z.natAbs
    show (pyFloatCore (natChars z.natAbs)).map (fun v => -v) = some ((z : ℚ))
    rw [pyFloatCore_digits h1 h2, h3]
    simp only [Option.map_some', Option.some.injEq]
    rw [Int.cast_natAbs, abs_of_neg hz]
    push_cast
    ring
  · rw [if_neg hz]
    rw [pyFloat?_natChars]
    have : ((z.toNat : ℤ)) = z := Int.toNat_of_nonneg (not_lt.mp hz)
    exact_mod_cast congrArg (fun t : ℤ => some ((t : ℚ))) this

theorem pyFloat?_pad2 (z : ℤ) : pyFloat? (pad2 z) = some ((z : ℚ)) := by
  unfold pad2
  by_cases h : 0 ≤ z ∧ z < 10
  · rw [if_pos h]
    have hz : ¬ z < 0 := by omega
    rw [intChars, if_neg hz]
    obtain ⟨h1, h2, h3⟩ := natChars_spec z.toNat
    have hd : isDig '0' = true := by decide
    have hall : (('0' :: natChars z.toNat).all isDig) = true := by
      simp [h1, hd]
    have hval : digitsVal ('0' :: natChars z.toNat) = digitsVal (natChars z.toNat) := rfl
    rw [pyFloat?_digits hall (by simp), hval, h3]
    have : ((z.toNat : ℤ)) = z := Int.toNat_of_nonneg h.1
    exact_mod_cast congrArg (fun t : ℤ => some ((t : ℚ))) this
  · rw [if_neg h]
    exact pyFloat?_intChars z

/-- Every character of `pad2 z` is a digit or a minus sign; in particular it
is never a colon. -/
theorem pad2_ne_colon (z : ℤ) : ∀ c ∈ pad2 z, c ≠ ':' := by
  have hnat : ∀ n : ℕ, ∀ c ∈ natChars n, c ≠ ':' := by
    intro n c hc
    obtain ⟨h1, _, _⟩ := natChars_spec n
    exact (isDig_ne (by
      have := List.all_eq_true.mp h1 c hc
      simpa using this)).1
  intro c hc
  unfold pad2 intChars at hc
  by_cases h : 0 ≤ z ∧ z < 10
  · rw [if_pos h] at hc
    have hz : ¬ z < 0 := by omega
    rw [if_neg hz] at hc
    rcases List.mem_cons.mp hc with rfl | hc
    · decide
    · exact hnat _ c hc
  · rw [if_neg h] at hc
    by_cases hz : z < 0
    · rw [if_pos hz] at hc
      rcases List.mem_cons.mp hc with rfl | hc
      · decide
      · exact hnat _ c hc
    · rw [if_neg hz] at hc
      exact hnat _ c hc

theorem splitOnChar_ne_nil (sep : Char) (l : List Char) : splitOnChar sep l ≠ [] := by
  cases l with
  | nil => simp [splitOnChar]
  | cons c rest =>
    rw [splitOnChar]
    by_cases h : c = sep
    · simp [h]
    · rw [if_neg h]
      cases splitOnChar sep rest <;> simp

theorem splitOnChar_no_sep {sep : Char} {xs : List Char} (h : ∀ c ∈ xs, c ≠ sep) :
    splitOnChar sep xs = [xs] := by
  induction xs with
  | nil => rfl
  | cons c rest ih =>
    rw [splitOnChar, if_neg (h c (by simp))]
    rw [ih (fun d hd => h d (by simp [hd]))]

theorem splitOnChar_append_cons {sep : Char} {xs : List Char} (ys : List Char)
    (h : ∀ c ∈ xs, c ≠ sep) :
    splitOnChar sep (xs ++ sep :: ys) = xs :: splitOnChar sep ys := by
  induction xs with
  | nil => simp [splitOnChar]
  | cons c rest ih =>
    rw [List.cons_append, splitOnChar, if_neg (h c (by simp))]
    rw [ih (fun d hd => h d (by simp [hd]))]

/-- The clock-decomposition identity behind `format_timestamp`: hours, minutes
and seconds recombine to the floor of the seconds value. -/
theorem clock_decomposition (q : ℚ) :
    3600 * ⌊q / 3600⌋ + 60 * ⌊(q - 3600 * (⌊q / 3600⌋ : ℚ)) / 60⌋ +
      ⌊q - 60 * (⌊q / 60⌋ : ℚ)⌋ = ⌊q⌋ := by
  have h1 : (q - 3600 * (⌊q / 3600⌋ : ℚ)) / 60 = q / 60 - ((60 * ⌊q / 3600⌋ : ℤ) : ℚ) := by
    push_cast
    ring
  have h2 : q - 60 * (⌊q / 60⌋ : ℚ) = q - ((60 * ⌊q / 60⌋ : ℤ) : ℚ) := by
    push_cast
    ring
  rw [h1, h2, Int.floor_sub_int, Int.floor_sub_int]
  ring

/-- Round trip of the helpers: parsing a formatted timestamp yields the floor
of the original seconds value (for any sign of the input). -/
theorem parse_format_timestamp (q : ℚ) :
    parse_timestamp (format_timestamp q) = some ((⌊q⌋ : ℚ)) := by
  have hform : format_timestamp q =
      pad2 ⌊q / 3600⌋ ++ ':' :: (pad2 ⌊(q - 3600 * (⌊q / 3600⌋ : ℚ)) / 60⌋ ++ ':' ::
        pad2 ⌊q - 60 * (⌊q / 60⌋ : ℚ)⌋) := by
    show (pad2 ⌊q / 3600⌋ ++ ':' :: pad2 ⌊(q - 3600 * (⌊q / 3600⌋ : ℚ)) / 60⌋) ++ ':' ::
        pad2 ⌊q - 60 * (⌊q / 60⌋ : ℚ)⌋ = _
    rw [List.append_assoc, List.cons_append]
  have hsplit : splitOnChar ':' (format_timestamp q) =
      [pad2 ⌊q / 3600⌋, pad2 ⌊(q - 3600 * (⌊q / 3600⌋ : ℚ)) / 60⌋,
        pad2 ⌊q - 60 * (⌊q / 60⌋ : ℚ)⌋] := by
    rw [hform, splitOnChar_append_cons _ (pad2_ne_colon _),
      splitOnChar_append_cons _ (pad2_ne_colon _),
      splitOnChar_no_sep (pad2_ne_colon _)]
  unfold parse_timestamp
  rw [hsplit]
  simp only [pyFloat?_pad2, Option.some_bind]
  have hc := clock_decomposition q
  have hcast : ((3600 * ⌊q / 3600⌋ + 60 * ⌊(q - 3600 * (⌊q / 3600⌋ : ℚ)) / 60⌋ +
      ⌊q - 60 * (⌊q / 60⌋ : ℚ)⌋ : ℤ) : ℚ) = ((⌊q⌋ : ℤ) : ℚ) := by
    exact_mod_cast congrArg (fun t : ℤ => (t : ℚ)) hc
  push_cast at hcast
  show some _ = some ((⌊q⌋ : ℚ))
  rw [Option.some.injEq]
  linarith [hcast]

theorem pyInt_eq_floor {q : ℚ} (h : 0 ≤ q) : pyInt q = ⌊q⌋ := by
  rw [pyInt, Rat.floor_def]
  exact Int.tdiv_eq_ediv (Rat.num_nonneg.mpr h) (by positivity)

/-! ### The clip selector (`modules/clip_selector.py`) -/

/-- A candidate clip record as handled by `ClipSelector`: the fields the
resolver reads or writes, plus `title` standing for the opaque metadata that
is passed through unchanged.  `none` models an absent dictionary key. -/
structure Clip where
  start_time : Option (List Char)
  end_time : Option (List Char)
  duration_seconds : Option ℤ
  virality_score : Option ℚ
  title : Option (List Char)
deriving DecidableEq

/-- The `ClipSelector` configuration consulted by the resolver pass:
`min_duration` and `max_duration` are `int` in the constructor signature,
`target_clips` is a count. -/
structure SelectorConfig where
  min_duration : ℤ
  max_duration : ℤ
  target_clips : ℕ
deriving DecidableEq

/-- One iteration of the loop in `ClipSelector._normalize_and_validate_clips`;
`none` models the `dropped` branches (missing or empty timestamps, a parse
error, non-positive duration, duration out of `[min_duration, max_duration]`).
The accepted clip is mutated: timestamps re-encoded canonically and
`duration_seconds` recomputed as `int(round(duration))`. -/
def normalizeClip (cfg : SelectorConfig) (clip : Clip) : Option Clip :=
  match clip.start_time, clip.end_time with
  | some start_str, some end_str =>
    if start_str.isEmpty || end_str.isEmpty then none
    else
      match parse_timestamp start_str, parse_timestamp end_str with
      | some start_s, some end_s =>
        let duration := max 0 (end_s - start_s)
        if duration ≤ 0 then none
        else if (cfg.max_duration : ℚ) < duration ∨ duration < (cfg.min_duration : ℚ) then
          none
        else
          some { clip with
            start_time := some (format_timestamp start_s),
            end_time := some (format_timestamp end_s),
            duration_seconds := some (pyRound duration) }
      | _, _ => none
  | _, _ => none

/-- `ClipSelector._normalize_and_validate_clips`: keep, in order, the clips
that survive normalization. -/
def normalize_and_validate_clips (cfg : SelectorConfig) (clips : List Clip) : List Clip :=
  clips.filterMap (normalizeClip cfg)

/-- The `start_time_s` sort key of `_dedupe_and_limit_clips`.  On clips
produced by normalization the parse always succeeds, so the `getD` defaults
(standing for a Python exception that cannot occur there) are never
consulted. -/
def start_time_s (c : Clip) : ℚ := ((c.start_time.bind parse_timestamp).getD 0)

/-- `parse_timestamp(clip["end_time"])` as read by the greedy pass. -/
def end_time_s (c : Clip) : ℚ := ((c.end_time.bind parse_timestamp).getD 0)

/-- The `score` key of `_dedupe_and_limit_clips`:
`float(c.get("virality_score", 0) or 0)`; an absent key (and Python's falsy
`None`/`0`, collapsed by `or 0`) scores zero. -/
def score (c : Clip) : ℚ := c.virality_score.getD 0

/-- The accept/reject loop of `_dedupe_and_limit_clips` over the start-sorted
clips, carrying `last_end` (initially `-1.0`, `overlap_buffer = 1.0`). -/
def greedyKeep : List Clip → ℚ → List Clip
  | [], _ => []
  | clip :: rest, last_end =>
    if last_end < 0 ∨ start_time_s clip ≥ last_end - 1 then
      clip :: greedyKeep rest (end_time_s clip)
    else
      greedyKeep rest last_end

/-- `ClipSelector._dedupe_and_limit_clips`: normalize, sort by start time,
keep greedily non-overlapping clips, rank by `virality_score` descending and
cap at `target_clips`.  Python's stable `list.sort` is modelled by the stable
`insertionSort`. -/
def dedupe_and_limit_clips (cfg : SelectorConfig) (clips : List Clip) : List Clip :=
  let normalized := normalize_and_validate_clips cfg clips
  if normalized.isEmpty then []
  else
    let sorted := normalized.insertionSort (fun a b => start_time_s a ≤ start_time_s b)
    let non_overlapping := greedyKeep sorted (-1)
    if non_overlapping.isEmpty then []
    else
      let ranked := non_overlapping.insertionSort (fun a b => score b ≤ score a)
      if ranked.length > cfg.target_clips then ranked.take cfg.target_clips else ranked

/-- The greedily accepted set of the resolver: the clips surviving the
accept/reject walk over the start-sorted normalized candidates, before any
score-based ranking. -/
def greedyAccepted (cfg : SelectorConfig) (clips : List Clip) : List Clip :=
  greedyKeep
    ((normalize_and_validate_clips cfg clips).insertionSort
      (fun a b => start_time_s a ≤ start_time_s b))
    (-1)

/-! ### Structural lemmas about the resolver -/

theorem parse_timestamp_nil : parse_timestamp [] = none := rfl

theorem parse_timestamp_ne_nil {ss : List Char} {v : ℚ} (h : parse_timestamp ss = some v) :
    ss ≠ [] := by
  rintro rfl
  rw [parse_timestamp_nil] at h
  exact Option.noConfusion h

/-- Forward computation of `normalizeClip` on a clip whose timestamps parse
and whose recomputed duration is positive and in range. -/
theorem normalizeClip_accepts {cfg : SelectorConfig} {c : Clip} {ss es : List Char} {s e : ℚ}
    (hcs : c.start_time = some ss) (hce : c.end_time = some es)
    (hs : parse_timestamp ss = some s) (he : parse_timestamp es = some e)
    (h1 : 0 < e - s) (h2 : (cfg.min_duration : ℚ) ≤ e - s) (h3 : e - s ≤ (cfg.max_duration : ℚ)) :
    normalizeClip cfg c = some { c with
      start_time := some (format_timestamp s),
      end_time := some (format_timestamp e),
      duration_seconds := some (pyRound (e - s)) } := by
  have hssne : ss ≠ [] := parse_timestamp_ne_nil hs
  have hesne : es ≠ [] := parse_timestamp_ne_nil he
  rw [normalizeClip]
  split
  case h_2 x y hfb => exact (hfb ss es (by rw [hcs]) (by rw [hce])).elim
  rename_i ss' es' hcs' hce'
  rw [hcs] at hcs'
  rw [hce] at hce'
  obtain rfl := Option.some.inj hcs'
  obtain rfl := Option.some.inj hce'
  rw [if_neg (by simp [List.isEmpty_iff, hssne, hesne]), hs, he]
  split
  case h_2 x y hfb => exact (hfb s e rfl rfl).elim
  rename_i s' e' hs' he'
  obtain rfl := Option.some.inj hs'
  obtain rfl := Option.some.inj he'
  have hmax : (0 : ℚ) ⊔ (e - s) = e - s := max_eq_right h1.le
  simp only [hmax]
  rw [if_neg (not_le.mpr h1), if_neg (by push_neg; exact ⟨h3, h2⟩)]

/-- Inverse analysis of `normalizeClip`: what must have held when a clip
survives, and the exact shape of the surviving record. -/
theorem normalizeClip_eq_some {cfg : SelectorConfig} {c c' : Clip}
    (h : normalizeClip cfg c = some c') :
    ∃ ss es s e,
      c.start_time = some ss ∧ c.end_time = some es ∧
      parse_timestamp ss = some s ∧ parse_timestamp es = some e ∧
      0 < e - s ∧ (cfg.min_duration : ℚ) ≤ e - s ∧ e - s ≤ (cfg.max_duration : ℚ) ∧
      c' = { c with
        start_time := some (format_timestamp s),
        end_time := some (format_timestamp e),
        duration_seconds := some (pyRound (e - s)) } := by
  rw [normalizeClip] at h
  split at h
  case h_2 => exact Option.noConfusion h
  rename_i ss es hcs hce
  split at h
  case isTrue => exact Option.noConfusion h
  rename_i hemp
  split at h
  case h_2 => exact Option.noConfusion h
  rename_i s e hs he
  simp only at h
  split at h
  case isTrue => exact Option.noConfusion h
  rename_i hd0
  split at h
  case isTrue => exact Option.noConfusion h
  rename_i hdr
  push_neg at hdr
  have hpos : 0 < e - s := by
    by_contra hns
    push_neg at hns
    exact hd0 (le_of_eq (max_eq_left hns))
  have hmax : (0 : ℚ) ⊔ (e - s) = e - s := max_eq_right hpos.le
  rw [hmax] at hdr h
  exact ⟨ss, es, s, e, hcs, hce, hs, he, hpos, hdr.2, hdr.1, (Option.some.inj h).symm⟩

/-- The parsed start of a clip whose stored `start_time` is a formatted
timestamp: the floor of the formatted value. -/
theorem start_time_s_format {c : Clip} {s : ℚ} (h : c.start_time = some (format_timestamp s)) :
    start_time_s c = ((⌊s⌋ : ℤ) : ℚ) := by
  rw [start_time_s, h, Option.some_bind, parse_format_timestamp, Option.getD_some]

theorem end_time_s_format {c : Clip} {e : ℚ} (h : c.end_time = some (format_timestamp e)) :
    end_time_s c = ((⌊e⌋ : ℤ) : ℚ) := by
  rw [end_time_s, h, Option.some_bind, parse_format_timestamp, Option.getD_some]

/-- Members of the normalized list carry in-range recomputed durations:
`min_duration ≤ end − start ≤ max_duration` on the re-encoded (floored)
timestamps, because the bounds are integers. -/
theorem normalized_duration_bounds {cfg : SelectorConfig} {clips : List Clip} :
    ∀ c' ∈ normalize_and_validate_clips cfg clips,
      (cfg.min_duration : ℚ) ≤ end_time_s c' - start_time_s c' ∧
        end_time_s c' - start_time_s c' ≤ (cfg.max_duration : ℚ) := by
  intro c' hc'
  obtain ⟨c, hc, hval⟩ := List.mem_filterMap.mp hc'
  obtain ⟨ss, es, s, e, hcs, hce, hs, he, hpos, hmin, hmaxb, rfl⟩ := normalizeClip_eq_some hval
  rw [start_time_s_format rfl, end_time_s_format rfl]
  have hfloor_lo : ⌊s⌋ + cfg.min_duration ≤ ⌊e⌋ := by
    have : s + (cfg.min_duration : ℚ) ≤ e := by linarith
    calc ⌊s⌋ + cfg.min_duration = ⌊s + (cfg.min_duration : ℚ)⌋ := (Int.floor_add_int s _).symm
    _ ≤ ⌊e⌋ := Int.floor_le_floor this
  have hfloor_hi : ⌊e⌋ ≤ ⌊s⌋ + cfg.max_duration := by
    have : e ≤ s + (cfg.max_duration : ℚ) := by linarith
    calc ⌊e⌋ ≤ ⌊s + (cfg.max_duration : ℚ)⌋ := Int.floor_le_floor this
    _ = ⌊s⌋ + cfg.max_duration := Int.floor_add_int s _
  constructor
  · have : ((⌊s⌋ + cfg.min_duration : ℤ) : ℚ) ≤ ((⌊e⌋ : ℤ) : ℚ) := by exact_mod_cast hfloor_lo
    push_cast at this
    linarith
  · have : ((⌊e⌋ : ℤ) : ℚ) ≤ ((⌊s⌋ + cfg.max_duration : ℤ) : ℚ) := by exact_mod_cast hfloor_hi
    push_cast at this
    linarith

theorem greedyKeep_sublist (l : List Clip) : ∀ e : ℚ, (greedyKeep l e).Sublist l := by
  induction l with
  | nil => intro e; simp [greedyKeep]
  | cons c rest ih =>
    intro e
    rw [greedyKeep]
    split
    · exact (ih _).cons₂ c
    · exact (ih e).cons c

/-- Once a clip has been accepted with end time `e ≥ 0`, every later accepted
clip starts no earlier than `e - 1` (using that the remaining list is sorted
by start time). -/
theorem greedyKeep_mem_lower (l : List Clip) : ∀ e : ℚ,
    l.Pairwise (fun a b => start_time_s a ≤ start_time_s b) →
    (∀ c ∈ l, 0 ≤ end_time_s c) → 0 ≤ e →
    ∀ x ∈ greedyKeep l e, e - 1 ≤ start_time_s x := by
  induction l with
  | nil => intro e _ _ _ x hx; simp [greedyKeep] at hx
  | cons c rest ih =>
    intro e hp h0 he x hx
    rcases List.pairwise_cons.mp hp with ⟨hc, hrest⟩
    rw [greedyKeep] at hx
    split at hx
    · rename_i hcond
      rcases List.mem_cons.mp hx with rfl | hx'
      · rcases hcond with h | h
        · linarith
        · linarith
      · have hxr : x ∈ rest := (greedyKeep_sublist rest _).subset hx'
        have hcx := hc x hxr
        rcases hcond with h | h
        · linarith
        · linarith
    · exact ih e hrest (fun d hd => h0 d (List.mem_cons_of_mem c hd)) he x hx

/-- The greedy pass over a start-sorted list with nonnegative end times
produces a pairwise non-overlapping (up to the 1-second buffer) list. -/
theorem greedyKeep_pairwise (l : List Clip) : ∀ e : ℚ,
    l.Pairwise (fun a b => start_time_s a ≤ start_time_s b) →
    (∀ c ∈ l, 0 ≤ end_time_s c) →
    (greedyKeep l e).Pairwise (fun a b => end_time_s a - 1 ≤ start_time_s b) := by
  induction l with
  | nil => intro e _ _; simp [greedyKeep]
  | cons c rest ih =>
    intro e hp h0
    rcases List.pairwise_cons.mp hp with ⟨hc, hrest⟩
    have h0' : ∀ d ∈ rest, 0 ≤ end_time_s d := fun d hd => h0 d (List.mem_cons_of_mem c hd)
    rw [greedyKeep]
    split
    · exact List.pairwise_cons.mpr
        ⟨greedyKeep_mem_lower rest (end_time_s c) hrest h0' (h0 c (by simp)),
          ih (end_time_s c) hrest h0'⟩
    · exact ih e hrest h0'

/-- `_dedupe_and_limit_clips` is exactly: greedy accepted set, sorted by score
descending, truncated to `target_clips` (the early returns on empty
intermediate lists coincide with this composition). -/
theorem dedupe_and_limit_eq (cfg : SelectorConfig) (clips : List Clip) :
    dedupe_and_limit_clips cfg clips =
      ((greedyAccepted cfg clips).insertionSort (fun a b => score b ≤ score a)).take
        cfg.target_clips := by
  simp only [dedupe_and_limit_clips, greedyAccepted]
  split
  · rename_i h1
    rw [List.isEmpty_iff] at h1
    rw [h1]
    simp [greedyKeep]
  · rename_i h1
    split
    · rename_i h2
      rw [List.isEmpty_iff] at h2
      rw [h2]
      simp
    · rename_i h2
      split
      · rfl
      · rename_i h3
        push_neg at h3
        rw [List.take_of_length_le h3]

theorem dedupe_length_le (cfg : SelectorConfig) (clips : List Clip) :
    (dedupe_and_limit_clips cfg clips).length ≤ cfg.target_clips := by
  rw [dedupe_and_limit_eq]
  exact List.length_take_le _ _

theorem dedupe_sorted_score (cfg : SelectorConfig) (clips : List Clip) :
    (dedupe_and_limit_clips cfg clips).Sorted (fun a b => score b ≤ score a) := by
  rw [dedupe_and_limit_eq]
  haveI : IsTotal Clip (fun a b => score b ≤ score a) := ⟨fun a b => le_total _ _⟩
  haveI : IsTrans Clip (fun a b => score b ≤ score a) :=
    ⟨fun a b c h1 h2 => le_trans h2 h1⟩
  exact (List.sorted_insertionSort _ _).sublist (List.take_sublist _ _)

/-- A symmetric pairwise property of the greedy accepted set survives the
score ranking (a permutation) and the cap (a sublist). -/
theorem dedupe_pairwise_of_greedy {cfg : SelectorConfig} {clips : List Clip}
    {R : Clip → Clip → Prop} (hsym : Symmetric R)
    (h : (greedyAccepted cfg clips).Pairwise R) :
    (dedupe_and_limit_clips cfg clips).Pairwise R := by
  rw [dedupe_and_limit_eq]
  have hperm := List.perm_insertionSort (fun a b => score b ≤ score a) (greedyAccepted cfg clips)
  exact ((hperm.pairwise_iff (fun hab => hsym hab)).mpr h).sublist (List.take_sublist _ _)

theorem dedupe_subset_normalized {cfg : SelectorConfig} {clips : List Clip} :
    ∀ c ∈ dedupe_and_limit_clips cfg clips, c ∈ normalize_and_validate_clips cfg clips := by
  intro c hc
  rw [dedupe_and_limit_eq] at hc
  have h1 := List.mem_of_mem_take hc
  rw [List.mem_insertionSort] at h1
  rw [greedyAccepted] at h1
  have h2 := (greedyKeep_sublist _ _).subset h1
  rwa [List.mem_insertionSort] at h2

/-- Normalization rejects exactly the out-of-range candidates: a clip whose
parsed duration is non-positive or out of `[min_duration, max_duration]` is
dropped (`none`), never clamped. -/
theorem normalizeClip_drops {cfg : SelectorConfig} {c : Clip} {ss es : List Char} {s e : ℚ}
    (hcs : c.start_time = some ss) (hce : c.end_time = some es)
    (hs : parse_timestamp ss = some s) (he : parse_timestamp es = some e)
    (hbad : e - s ≤ 0 ∨ e - s < (cfg.min_duration : ℚ) ∨ (cfg.max_duration : ℚ) < e - s) :
    normalizeClip cfg c = none := by
  rw [normalizeClip]
  split
  · rename_i ss' es' hcs' hce'
    rw [hcs] at hcs'
    rw [hce] at hce'
    obtain rfl := Option.some.inj hcs'
    obtain rfl := Option.some.inj hce'
    by_cases hemp : (ss.isEmpty || es.isEmpty) = true
    · rw [if_pos hemp]
    · rw [if_neg hemp, hs, he]
      split
      · rename_i s' e' hs' he'
        obtain rfl := Option.some.inj hs'
        obtain rfl := Option.some.inj he'
        simp only
        by_cases h0 : (0 : ℚ) ⊔ (e - s) ≤ 0
        · rw [if_pos h0]
        · have hpos : 0 < e - s := by
            by_contra hns
            push_neg at hns
            exact h0 (le_of_eq (max_eq_left hns))
          have hcond : (cfg.max_duration : ℚ) < (0 : ℚ) ⊔ (e - s) ∨
              (0 : ℚ) ⊔ (e - s) < (cfg.min_duration : ℚ) := by
            rw [max_eq_right hpos.le]
            rcases hbad with h | h | h
            · linarith
            · exact Or.inr h
            · exact Or.inl h
          rw [if_neg h0, if_pos hcond]
      · rename_i hfb
        exact (hfb s e rfl rfl).elim
  · rfl

/-- If every candidate is rejected by normalization, the resolver returns the
empty selection. -/
theorem dedupe_empty_of_all_invalid {cfg : SelectorConfig} {clips : List Clip}
    (h : ∀ c ∈ clips, normalizeClip cfg c = none) :
    dedupe_and_limit_clips cfg clips = [] := by
  have hn : normalize_and_validate_clips cfg clips = [] := by
    rw [normalize_and_validate_clips]
    exact List.filterMap_eq_nil_iff.mpr h
  rw [dedupe_and_limit_eq, greedyAccepted, hn]
  simp [greedyKeep]

/-- When every input start time parses nonnegative, every normalized clip has
nonnegative (floored) start and end values. -/
theorem normalized_nonneg {cfg : SelectorConfig} {clips : List Clip}
    (hpos : ∀ c ∈ clips, ∀ str, c.start_time = some str →
      ∀ v, parse_timestamp str = some v → 0 ≤ v) :
    ∀ c' ∈ normalize_and_validate_clips cfg clips,
      0 ≤ start_time_s c' ∧ 0 ≤ end_time_s c' := by
  intro c' hc'
  obtain ⟨c, hc, hval⟩ := List.mem_filterMap.mp hc'
  obtain ⟨ss, es, s, e, hcs, hce, hs, he, hp, hmin, hmax, rfl⟩ := normalizeClip_eq_some hval
  have hs0 : 0 ≤ s := hpos c hc ss hcs s hs
  have he0 : 0 ≤ e := by linarith
  rw [start_time_s_format rfl, end_time_s_format rfl]
  exact ⟨by exact_mod_cast Int.floor_nonneg.mpr hs0,
    by exact_mod_cast Int.floor_nonneg.mpr he0⟩

/-! ### Claims -/

/-- The selection is pairwise non-overlapping up to the 1-second buffer
between strictly start-ordered pairs, whenever all input start times parse
nonnegative. -/
theorem dedupe_strict_nonoverlap (cfg : SelectorConfig) (clips : List Clip)
    (hpos : ∀ c ∈ clips, ∀ str, c.start_time = some str →
      ∀ v, parse_timestamp str = some v → 0 ≤ v) :
    (dedupe_and_limit_clips cfg clips).Pairwise (fun a b =>
      (start_time_s a < start_time_s b → end_time_s a - 1 ≤ start_time_s b) ∧
      (start_time_s b < start_time_s a → end_time_s b - 1 ≤ start_time_s a)) := by
  apply dedupe_pairwise_of_greedy (fun a b h => ⟨h.2, h.1⟩)
  rw [greedyAccepted]
  haveI : IsTotal Clip (fun a b => start_time_s a ≤ start_time_s b) :=
    ⟨fun a b => le_total _ _⟩
  haveI : IsTrans Clip (fun a b => start_time_s a ≤ start_time_s b) :=
    ⟨fun a b c h1 h2 => le_trans h1 h2⟩
  have hsorted := List.sorted_insertionSort (fun a b => start_time_s a ≤ start_time_s b)
    (normalize_and_validate_clips cfg clips)
  have h0 : ∀ c ∈ (normalize_and_validate_clips cfg clips).insertionSort
      (fun a b => start_time_s a ≤ start_time_s b), 0 ≤ end_time_s c := by
    intro c hc
    exact (normalized_nonneg hpos c ((List.mem_insertionSort _).mp hc)).2
  have hnov := greedyKeep_pairwise _ (-1) hsorted h0
  have hstart := hsorted.sublist
    (greedyKeep_sublist ((normalize_and_validate_clips cfg clips).insertionSort
      (fun a b => start_time_s a ≤ start_time_s b)) (-1))
  exact List.Pairwise.imp₂
    (fun a b h1 h2 => ⟨fun _ => h1, fun hlt => absurd h2 (not_le.mpr hlt)⟩) hnov hstart

/-- C1 (corrected): for candidate lists all of whose start times parse to
nonnegative seconds values, any two distinct intervals of the returned
selection, when ordered by (strictly comparable) start time, obey
`earlier.end − 1 ≤ later.start`.  (Unrestricted, the claim fails: a negative
accepted end time re-arms the `last_end < 0` "nothing accepted yet" sentinel
and disables the overlap check; see the counterexample.) -/
theorem C1_pairwise_nonoverlap (cfg : SelectorConfig) (clips : List Clip)
    (hpos : ∀ c ∈ clips, ∀ str, c.start_time = some str →
      ∀ v, parse_timestamp str = some v → 0 ≤ v) :
    (dedupe_and_limit_clips cfg clips).Pairwise (fun a b =>
      (start_time_s a < start_time_s b → end_time_s a - 1 ≤ start_time_s b) ∧
      (start_time_s b < start_time_s a → end_time_s b - 1 ≤ start_time_s a)) :=
  dedupe_strict_nonoverlap cfg clips hpos

/-- C2: the selection equals the greedily accepted set sorted by score
descending and truncated to the first `target_clips` entries; its length never
exceeds `target_clips`, and it is sorted by descending score.  Acceptance (in
start-time order, inside `greedyAccepted`) happens before and independently of
the score ranking. -/
theorem C2_rank_and_cap (cfg : SelectorConfig) (clips : List Clip) :
    dedupe_and_limit_clips cfg clips =
      ((greedyAccepted cfg clips).insertionSort (fun a b => score b ≤ score a)).take
        cfg.target_clips ∧
    (dedupe_and_limit_clips cfg clips).length ≤ cfg.target_clips ∧
    (dedupe_and_limit_clips cfg clips).Sorted (fun a b => score b ≤ score a) :=
  ⟨dedupe_and_limit_eq cfg clips, dedupe_length_le cfg clips, dedupe_sorted_score cfg clips⟩

/-- C3: every interval of the returned selection has
`min_duration ≤ end − start ≤ max_duration`, where `end − start` is recomputed
from the record's parsed (re-encoded) timestamps; and any candidate whose
recomputed duration is non-positive or out of range is dropped by
normalization (`none`), never clamped. -/
theorem C3_duration_bounds (cfg : SelectorConfig) (clips : List Clip) :
    (∀ c ∈ dedupe_and_limit_clips cfg clips,
      (cfg.min_duration : ℚ) ≤ end_time_s c - start_time_s c ∧
        end_time_s c - start_time_s c ≤ (cfg.max_duration : ℚ)) ∧
    (∀ (c : Clip) (ss es : List Char) (s e : ℚ),
      c.start_time = some ss → c.end_time = some es →
      parse_timestamp ss = some s → parse_timestamp es = some e →
      (e - s ≤ 0 ∨ e - s < (cfg.min_duration : ℚ) ∨ (cfg.max_duration : ℚ) < e - s) →
      normalizeClip cfg c = none) := by
  constructor
  · intro c hc
    exact normalized_duration_bounds c (dedupe_subset_normalized c hc)
  · intro c ss es s e hcs hce hs he hbad
    exact normalizeClip_drops hcs hce hs he hbad

/-- C7: the resolver never raises for bad candidate data (all the modelled
functions are total, with `none` marking a dropped candidate rather than a
propagated exception), and when every candidate is invalid the result is the
empty selection — a valid, non-error outcome. -/
theorem C7_invalid_filtered (cfg : SelectorConfig) (clips : List Clip)
    (h : ∀ c ∈ clips, normalizeClip cfg c = none) :
    dedupe_and_limit_clips cfg clips = [] :=
  dedupe_empty_of_all_invalid h

/-- C9: start/end times are accepted in `"HH:MM:SS"` form or plain seconds
form: two candidates differing only in the textual form of timestamps that
parse to the same values normalize identically, and with an in-range positive
duration the candidate is retained. -/
theorem C9_seconds_form (cfg : SelectorConfig) (c d : Clip) (ss es ds es' : List Char)
    (s e : ℚ)
    (hcs : c.start_time = some ss) (hce : c.end_time = some es)
    (hds : d.start_time = some ds) (hde : d.end_time = some es')
    (hdu : c.duration_seconds = d.duration_seconds)
    (hsc : c.virality_score = d.virality_score) (hti : c.title = d.title)
    (hs : parse_timestamp ss = some s) (he : parse_timestamp es = some e)
    (hs' : parse_timestamp ds = some s) (he' : parse_timestamp es' = some e)
    (h1 : 0 < e - s) (h2 : (cfg.min_duration : ℚ) ≤ e - s)
    (h3 : e - s ≤ (cfg.max_duration : ℚ)) :
    normalizeClip cfg c = normalizeClip cfg d ∧ (normalizeClip cfg c).isSome := by
  rw [normalizeClip_accepts hcs hce hs he h1 h2 h3,
    normalizeClip_accepts hds hde hs' he' h1 h2 h3]
  refine ⟨?_, rfl⟩
  cases c
  cases d
  simp_all

/-- C10: for `s ≥ 0`, `parse_timestamp (format_timestamp s)` is exactly
`⌊s⌋`: re-encoding truncates sub-second precision, and the re-encoded value
never exceeds the original. -/
theorem C10_format_parse_floor (s : ℚ) (_h : 0 ≤ s) :
    parse_timestamp (format_timestamp s) = some ((⌊s⌋ : ℤ) : ℚ) ∧ ((⌊s⌋ : ℤ) : ℚ) ≤ s :=
  ⟨parse_format_timestamp s, Int.floor_le s⟩

/-! ### The face tracker (`modules/face_tracker.py`) -/

/-- One detected face-position record: `center_x`/`center_y` are `int(...)`
pixel coordinates; `method` tags the detection quality (`pose_keypoints` or
`bbox_heuristic`) and does not weight the median. -/
structure FacePos where
  center_x : ℤ
  center_y : ℤ
  method : List Char
deriving DecidableEq

/-- `np.median` of a non-empty sample list: middle element of the sorted
samples for odd length, mean of the two middle elements for even length.
(The `getD` defaults are unreachable for non-empty input, and the function is
only reached with non-empty input.) -/
def npMedian (xs : List ℚ) : ℚ :=
  let sorted := xs.insertionSort (fun a b => a ≤ b)
  let n := xs.length
  if n % 2 = 1 then sorted.getD (n / 2) 0
  else (sorted.getD (n / 2 - 1) 0 + sorted.getD (n / 2) 0) / 2

/-- The returned centre fields of `FaceTracker._calculate_face_center`: the
per-axis `int(np.median(...))`.  The mean and standard deviation computed in
the source feed only log statements, not the returned record. -/
def calculate_face_center (face_positions : List FacePos) : ℤ × ℤ :=
  (pyInt (npMedian (face_positions.map (fun p => (p.center_x : ℚ)))),
    pyInt (npMedian (face_positions.map (fun p => (p.center_y : ℚ)))))

/-- The returned centre fields of `FaceTracker._get_fallback_center`. -/
def get_fallback_center (frame_width frame_height : ℤ) : ℤ × ℤ :=
  (if frame_width > 0 then frame_width / 2 else 0,
    if frame_height > 0 then frame_height / 2 else 0)

/-- The dispatch at the end of `track_faces_in_clip`: the fallback centre when
no face positions were collected, otherwise the median-based stable centre. -/
def track_face_center (face_positions : List FacePos)
    (frame_width frame_height : ℤ) : ℤ × ℤ :=
  if face_positions.isEmpty then get_fallback_center frame_width frame_height
  else calculate_face_center face_positions

/-! ### The video processor (`modules/video_processor.py`) -/

structure CropParams where
  x : ℤ
  y : ℤ
  width : ℤ
  height : ℤ
deriving DecidableEq

/-- The source-dimension guard at the top of `create_vertical_clip`:
non-positive dimensions are replaced by the 4K defaults. -/
def effective_dims (source_width source_height : ℤ) : ℤ × ℤ :=
  if source_width ≤ 0 ∨ source_height ≤ 0 then (3840, 2160)
  else (source_width, source_height)

/-- The crop-geometry computation of `VideoProcessor.create_vertical_clip`
(the `crop_params` handed to the ffmpeg crop filter).  `target_aspect = 9/16`
is exact in binary floating point, and `int(...)` of the two float quotients
equals the rational floor at any realistic dimensions. -/
def create_vertical_clip_crop (face_x face_y source_width source_height : ℤ) : CropParams :=
  let dims := effective_dims source_width source_height
  let sw := dims.1
  let sh := dims.2
  let crop_height := sh
  let crop_width := pyInt ((crop_height : ℚ) * (9 / 16))
  let cw := if crop_width > sw then sw else crop_width
  let ch := if crop_width > sw then pyInt ((sw : ℚ) / (9 / 16)) else crop_height
  let half_w := cw / 2
  let half_h := ch / 2
  let crop_x := face_x - half_w
  let crop_y := face_y - half_h
  ⟨max 0 (min crop_x (sw - cw)), max 0 (min crop_y (sh - ch)), cw, ch⟩

/-- C5: for a non-empty sample list the stable point is the per-axis integer
median of the sample coordinates (the mean and standard deviation in the
source are used only for logging); for the empty list and positive frame
dimensions it is the frame's geometric centre `(width/2, height/2)`. -/
theorem C5_stabilize_median (ps : List FacePos) (w h : ℤ) :
    (ps ≠ [] → track_face_center ps w h =
      (pyInt (npMedian (ps.map (fun p => (p.center_x : ℚ)))),
        pyInt (npMedian (ps.map (fun p => (p.center_y : ℚ)))))) ∧
    (ps = [] → 0 < w → 0 < h → track_face_center ps w h = (w / 2, h / 2)) := by
  constructor
  · intro hne
    rw [track_face_center, if_neg (by simpa [List.isEmpty_iff] using hne)]
    rfl
  · rintro rfl hw hh
    rw [track_face_center, if_pos (show ([] : List FacePos).isEmpty = true from rfl),
      get_fallback_center, if_pos hw, if_pos hh]

/-- The floor characterisation of the two `int(...)` quotients in the crop
computation. -/
theorem pyInt_mul_nine_sixteenths {n : ℤ} (hn : 0 < n) :
    pyInt ((n : ℚ) * (9 / 16)) = (9 * n) / 16 := by
  have h1 : (n : ℚ) * (9 / 16) = (((9 * n : ℤ) : ℚ)) / (((16 : ℕ) : ℚ)) := by
    push_cast
    ring
  rw [pyInt_eq_floor (by positivity), h1, Rat.floor_intCast_div_natCast]
  norm_num

theorem pyInt_div_nine_sixteenths {n : ℤ} (hn : 0 < n) :
    pyInt ((n : ℚ) / (9 / 16)) = (16 * n) / 9 := by
  have h1 : (n : ℚ) / (9 / 16) = (((16 * n : ℤ) : ℚ)) / (((9 : ℕ) : ℚ)) := by
    push_cast
    ring
  rw [pyInt_eq_floor (by positivity), h1, Rat.floor_intCast_div_natCast]
  norm_num

/-- C6: for every face point and all source dimensions the crop rectangle is
contained in the (guarded) source frame, and its aspect ratio is 9:16 within
integer rounding (`|16·width − 9·height| < 16`, i.e. the width differs from
exactly (9/16)·height by less than one pixel); non-positive source dimensions
are first replaced by the fixed 3840×2160 default. -/
theorem C6_crop_containment (fx fy sw sh : ℤ) :
    0 ≤ (create_vertical_clip_crop fx fy sw sh).x ∧
    (create_vertical_clip_crop fx fy sw sh).x + (create_vertical_clip_crop fx fy sw sh).width ≤
      (effective_dims sw sh).1 ∧
    0 ≤ (create_vertical_clip_crop fx fy sw sh).y ∧
    (create_vertical_clip_crop fx fy sw sh).y + (create_vertical_clip_crop fx fy sw sh).height ≤
      (effective_dims sw sh).2 ∧
    (16 * (create_vertical_clip_crop fx fy sw sh).width -
      9 * (create_vertical_clip_crop fx fy sw sh).height).natAbs < 16 ∧
    ((0 < sw ∧ 0 < sh) → effective_dims sw sh = (sw, sh)) ∧
    (¬(0 < sw ∧ 0 < sh) → effective_dims sw sh = (3840, 2160)) := by
  obtain ⟨hew, heh⟩ : 0 < (effective_dims sw sh).1 ∧ 0 < (effective_dims sw sh).2 := by
    rw [effective_dims]
    split
    · exact ⟨by norm_num, by norm_num⟩
    · rename_i hcond
      push_neg at hcond
      exact ⟨hcond.1, hcond.2⟩
  have hdims_pos : (0 < sw ∧ 0 < sh) → effective_dims sw sh = (sw, sh) := by
    intro hp
    rw [effective_dims, if_neg (by push_neg; omega)]
  have hdims_neg : ¬(0 < sw ∧ 0 < sh) → effective_dims sw sh = (3840, 2160) := by
    intro hp
    rw [effective_dims, if_pos (by omega)]
  simp only [create_vertical_clip_crop]
  set ew := (effective_dims sw sh).1 with hew_def
  set eh := (effective_dims sw sh).2 with heh_def
  rw [pyInt_mul_nine_sixteenths heh]
  have hd1 := Int.ediv_add_emod (9 * eh) 16
  have hr1 := Int.emod_nonneg (9 * eh) (show (16 : ℤ) ≠ 0 by norm_num)
  have hr1' := Int.emod_lt_of_pos (9 * eh) (show (0 : ℤ) < 16 by norm_num)
  by_cases hbr : (9 * eh) / 16 > ew
  · rw [if_pos hbr, if_pos hbr, pyInt_div_nine_sixteenths hew]
    have hd2 := Int.ediv_add_emod (16 * ew) 9
    have hr2 := Int.emod_nonneg (16 * ew) (show (9 : ℤ) ≠ 0 by norm_num)
    have hr2' := Int.emod_lt_of_pos (16 * ew) (show (0 : ℤ) < 9 by norm_num)
    refine ⟨?_, ?_, ?_, ?_, ?_, hdims_pos, hdims_neg⟩ <;> omega
  · rw [if_neg hbr, if_neg hbr]
    refine ⟨?_, ?_, ?_, ?_, ?_, hdims_pos, hdims_neg⟩ <;> omega

/-! ### The subtitle renderer (`modules/subtitle_renderer.py`) -/

/-- A word-timing record: `text`, `start`, `end` (interval-relative seconds). -/
structure Word where
  text : List Char
  start : ℚ
  «end» : ℚ
deriving DecidableEq

/-- `SubtitleRenderer._get_active_words`: find the first word whose
`[start, end)` contains `current_time` (a linear scan with `break` in the
source, i.e. `findIdx?`); on silence return `([], -1)`; otherwise centre a
window of `max_words` words on it, shifting left at the tail, and report the
highlighted index relative to the window.  Python's `//` is `Int.fdiv`; the
slice `words[start_idx:end_idx]` is modelled by `drop`/`take`, faithful for
the nonnegative slice endpoints arising whenever `max_words ≥ 1`. -/
def get_active_words (words : List Word) (current_time : ℚ) (max_words : ℤ) :
    List Word × ℤ :=
  match words.findIdx?
      (fun w => decide (w.start ≤ current_time) && decide (current_time < w.«end»)) with
  | none => ([], -1)
  | some i =>
    let current_word_idx : ℤ := (i : ℤ)
    let start_idx : ℤ := max 0 (current_word_idx - max_words.fdiv 2)
    let end_idx : ℤ := min ((words.length : ℤ)) (start_idx + max_words)
    let start_idx2 : ℤ := if end_idx - start_idx < max_words then max 0 (end_idx - max_words)
      else start_idx
    ((words.drop start_idx2.toNat).take ((end_idx - start_idx2).toNat),
      current_word_idx - start_idx2)

/-- `findIdx?` returns the index of the first element satisfying the
predicate. -/
theorem findIdx?_first {α : Type} (p : α → Bool) (l : List α) : ∀ (i : ℕ) (w : α),
    l[i]? = some w → p w = true →
    (∀ (j : ℕ) (u : α), j < i → l[j]? = some u → p u = false) →
    l.findIdx? p = some i := by
  induction l with
  | nil => intro i w hw _ _; simp at hw
  | cons x xs ih =>
    intro i w hw hpw hbef
    cases i with
    | zero =>
      simp only [List.getElem?_cons_zero, Option.some.injEq] at hw
      subst hw
      simp [List.findIdx?_cons, hpw]
    | succ k =>
      have hx : p x = false := hbef 0 x (by omega) (by simp)
      simp only [List.getElem?_cons_succ] at hw
      rw [List.findIdx?_cons, if_neg (by simp [hx]), List.findIdx?_succ]
      rw [ih k w hw hpw (fun j u hj hu => hbef (j + 1) u (by omega) (by simpa using hu))]
      rfl

/-- C4: for a start-sorted word list and `max_words ≥ 1`: if no word's
`[start, end)` contains the query time the window is empty with sentinel
highlight `-1`; otherwise, with `idx` the first containing index, the visible
words are the slice `[window_start, window_end)` with
`window_start = max 0 (idx − max_words/2)`,
`window_end = min len (window_start + max_words)`, `window_start` shifted
left to `max 0 (window_end − max_words)` when the tail makes the slice short,
the highlighted index is `idx − window_start`, and the window is full size
whenever enough words exist (`|visible| = min max_words len`). -/
theorem C4_word_window (words : List Word) (t : ℚ) (mw : ℤ)
    (_hsorted : words.Pairwise (fun a b => a.start ≤ b.start)) (hmw : 1 ≤ mw) :
    ((∀ w ∈ words, ¬(w.start ≤ t ∧ t < w.«end»)) →
      get_active_words words t mw = ([], -1)) ∧
    (∀ (i : ℕ) (w : Word), words[i]? = some w → (w.start ≤ t ∧ t < w.«end») →
      (∀ (j : ℕ) (u : Word), j < i → words[j]? = some u → ¬(u.start ≤ t ∧ t < u.«end»)) →
      ∃ ws0 we ws : ℤ,
        ws0 = max 0 ((i : ℤ) - mw.fdiv 2) ∧
        we = min ((words.length : ℤ)) (ws0 + mw) ∧
        ws = (if we - ws0 < mw then max 0 (we - mw) else ws0) ∧
        get_active_words words t mw =
          ((words.drop ws.toNat).take ((we - ws).toNat), (i : ℤ) - ws) ∧
        (((get_active_words words t mw).1.length : ℤ) = min mw ((words.length : ℤ)))) := by
  constructor
  · intro hnone
    have hfind : words.findIdx?
        (fun w => decide (w.start ≤ t) && decide (t < w.«end»)) = none := by
      rw [List.findIdx?_eq_none_iff]
      intro x hx
      have := hnone x hx
      simp only [Bool.and_eq_false_iff, decide_eq_false_iff_not]
      by_cases hs : x.start ≤ t
      · exact Or.inr (fun hlt => this ⟨hs, hlt⟩)
      · exact Or.inl hs
    rw [get_active_words, hfind]
  · intro i w hw hcont hbef
    have hfind : words.findIdx?
        (fun w => decide (w.start ≤ t) && decide (t < w.«end»)) = some i := by
      apply findIdx?_first _ _ i w hw
      · simp [hcont.1, hcont.2]
      · intro j u hj hu
        have := hbef j u hj hu
        simp only [Bool.and_eq_false_iff, decide_eq_false_iff_not]
        by_cases hs : u.start ≤ t
        · exact Or.inr (fun hlt => this ⟨hs, hlt⟩)
        · exact Or.inl hs
    have hilen : i < words.length := by
      by_contra hge
      rw [List.getElem?_eq_none (by omega)] at hw
      exact Option.noConfusion hw
    have hgaw : get_active_words words t mw =
        ((words.drop (if min ((words.length : ℤ)) (max 0 ((i : ℤ) - mw.fdiv 2) + mw) -
              max 0 ((i : ℤ) - mw.fdiv 2) < mw then
            max 0 (min ((words.length : ℤ)) (max 0 ((i : ℤ) - mw.fdiv 2) + mw) - mw)
          else max 0 ((i : ℤ) - mw.fdiv 2)).toNat).take
          ((min ((words.length : ℤ)) (max 0 ((i : ℤ) - mw.fdiv 2) + mw) -
            (if min ((words.length : ℤ)) (max 0 ((i : ℤ) - mw.fdiv 2) + mw) -
                max 0 ((i : ℤ) - mw.fdiv 2) < mw then
              max 0 (min ((words.length : ℤ)) (max 0 ((i : ℤ) - mw.fdiv 2) + mw) - mw)
            else max 0 ((i : ℤ) - mw.fdiv 2))).toNat),
          (i : ℤ) - (if min ((words.length : ℤ)) (max 0 ((i : ℤ) - mw.fdiv 2) + mw) -
              max 0 ((i : ℤ) - mw.fdiv 2) < mw then
            max 0 (min ((words.length : ℤ)) (max 0 ((i : ℤ) - mw.fdiv 2) + mw) - mw)
          else max 0 ((i : ℤ) - mw.fdiv 2))) := by
      rw [get_active_words, hfind]
    refine ⟨max 0 ((i : ℤ) - mw.fdiv 2),
      min ((words.length : ℤ)) (max 0 ((i : ℤ) - mw.fdiv 2) + mw), _, rfl, rfl, rfl, hgaw, ?_⟩
    rw [hgaw]
    have hfd : mw.fdiv 2 = mw / 2 := Int.fdiv_eq_ediv mw (by norm_num)
    simp only [List.length_take, List.length_drop]
    rw [hfd]
    omega

/-! ### Re-feeding the resolver its own output (claim C8) -/

/-- When all parse values are whole nonnegative seconds, every normalized clip
is a fixed point of normalization: its canonical timestamps re-parse to the
same whole values, the recomputed duration is the same integer, and the
re-encoded fields coincide with the stored ones. -/
theorem normalized_fixpoint {cfg : SelectorConfig} {clips : List Clip}
    (H1 : ∀ c ∈ clips, ∀ str v, (c.start_time = some str ∨ c.end_time = some str) →
      parse_timestamp str = some v → ∃ n : ℕ, v = ((n : ℕ) : ℚ)) :
    ∀ c' ∈ normalize_and_validate_clips cfg clips, normalizeClip cfg c' = some c' := by
  intro c' hc'
  obtain ⟨c, hc, hval⟩ := List.mem_filterMap.mp hc'
  obtain ⟨ss, es, s, e, hcs, hce, hs, he, hpos, hmin, hmax, rfl⟩ := normalizeClip_eq_some hval
  obtain ⟨sn, rfl⟩ := H1 c hc ss s (Or.inl hcs) hs
  obtain ⟨en, rfl⟩ := H1 c hc es e (Or.inr hce) he
  obtain ⟨cst, cen, cdu, cvs, cti⟩ := c
  have hps : parse_timestamp (format_timestamp ((sn : ℕ) : ℚ)) = some ((sn : ℕ) : ℚ) := by
    rw [parse_format_timestamp, Int.floor_natCast]
    norm_num
  have hpe : parse_timestamp (format_timestamp ((en : ℕ) : ℚ)) = some ((en : ℕ) : ℚ) := by
    rw [parse_format_timestamp, Int.floor_natCast]
    norm_num
  rw [normalizeClip_accepts rfl rfl hps hpe hpos hmin hmax]

/-- `_normalize_and_validate_clips` is the identity on a list of fixed
points. -/
theorem normalize_id_of_fixpoint {cfg : SelectorConfig} : ∀ {l : List Clip},
    (∀ c ∈ l, normalizeClip cfg c = some c) → normalize_and_validate_clips cfg l = l := by
  intro l
  induction l with
  | nil => intro _; rfl
  | cons c t ih =>
    intro h
    rw [normalize_and_validate_clips, List.filterMap_cons_some (h c (by simp))]
    have := ih (fun d hd => h d (by simp [hd]))
    rw [normalize_and_validate_clips] at this
    rw [this]

/-- Distinct parsed input starts yield distinct stored start values after
normalization (whole-second inputs floor to themselves). -/
theorem normalized_starts_injective {cfg : SelectorConfig} {clips : List Clip}
    (H1 : ∀ c ∈ clips, ∀ str v, (c.start_time = some str ∨ c.end_time = some str) →
      parse_timestamp str = some v → ∃ n : ℕ, v = ((n : ℕ) : ℚ))
    (H2 : clips.Pairwise (fun c d => ∀ v w,
      c.start_time.bind parse_timestamp = some v →
      d.start_time.bind parse_timestamp = some w → v ≠ w)) :
    (normalize_and_validate_clips cfg clips).Pairwise
      (fun a b => start_time_s a ≠ start_time_s b) := by
  rw [normalize_and_validate_clips, List.pairwise_filterMap]
  refine List.Pairwise.imp_of_mem ?_ H2
  intro c d hc hd hcd b hb b' hb'
  rw [Option.mem_def] at hb hb'
  obtain ⟨ss, es, s, e, hcs, hce, hs, he, _, _, _, rfl⟩ := normalizeClip_eq_some hb
  obtain ⟨ds, de, s', e', hds, hde, hs', he', _, _, _, rfl⟩ := normalizeClip_eq_some hb'
  obtain ⟨n, rfl⟩ := H1 c hc ss s (Or.inl hcs) hs
  obtain ⟨m, rfl⟩ := H1 d hd ds s' (Or.inl hds) hs'
  have hne := hcd _ _ (by rw [hcs, Option.some_bind, hs]) (by rw [hds, Option.some_bind, hs'])
  rw [start_time_s_format rfl, start_time_s_format rfl]
  intro hEq
  apply hne
  rw [Int.floor_natCast, Int.floor_natCast] at hEq
  exact_mod_cast hEq

/-- Normalization preserves the score, so distinct input scores stay
distinct. -/
theorem normalized_scores_distinct {cfg : SelectorConfig} {clips : List Clip}
    (H3 : clips.Pairwise (fun c d => score c ≠ score d)) :
    (normalize_and_validate_clips cfg clips).Pairwise (fun a b => score a ≠ score b) := by
  rw [normalize_and_validate_clips, List.pairwise_filterMap]
  refine H3.imp ?_
  intro c d hcd b hb b' hb'
  rw [Option.mem_def] at hb hb'
  obtain ⟨_, _, _, _, _, _, _, _, _, _, _, rfl⟩ := normalizeClip_eq_some hb
  obtain ⟨_, _, _, _, _, _, _, _, _, _, _, rfl⟩ := normalizeClip_eq_some hb'
  simpa [score] using hcd

/-- A symmetric pairwise property of the normalized list survives the whole
resolver pipeline. -/
theorem dedupe_pairwise_of_normalized {cfg : SelectorConfig} {clips : List Clip}
    {R : Clip → Clip → Prop} (hsym : Symmetric R)
    (h : (normalize_and_validate_clips cfg clips).Pairwise R) :
    (dedupe_and_limit_clips cfg clips).Pairwise R := by
  apply dedupe_pairwise_of_greedy hsym
  rw [greedyAccepted]
  have hperm := List.perm_insertionSort (fun a b => start_time_s a ≤ start_time_s b)
    (normalize_and_validate_clips cfg clips)
  exact ((hperm.pairwise_iff (fun hab => hsym hab)).mpr h).sublist
    (greedyKeep_sublist ((normalize_and_validate_clips cfg clips).insertionSort
      (fun a b => start_time_s a ≤ start_time_s b)) (-1))

/-- The greedy pass keeps everything when adjacent clips already satisfy the
buffered non-overlap condition and the incoming `last_end` does not reject
the head. -/
theorem greedyKeep_eq_self : ∀ (l : List Clip) (e : ℚ),
    l.Chain' (fun a b => end_time_s a - 1 ≤ start_time_s b) →
    (∀ c ∈ l.head?, e < 0 ∨ start_time_s c ≥ e - 1) →
    greedyKeep l e = l := by
  intro l
  induction l with
  | nil => intro e _ _; rfl
  | cons c rest ih =>
    intro e hch hhd
    rw [greedyKeep, if_pos (hhd c rfl)]
    congr 1
    apply ih (end_time_s c) hch.tail
    intro d hd
    cases rest with
    | nil => simp at hd
    | cons d' rest' =>
      have hdd : d' = d := by simpa using hd
      subst hdd
      exact Or.inr (by have := (List.chain'_cons.mp hch).1; linarith)

/-- Two lists sorted by weakly decreasing key with pairwise-distinct keys and
the same multiset of elements are equal. -/
theorem sorted_ge_unique {f : Clip → ℚ} {l₁ l₂ : List Clip} (hperm : l₁.Perm l₂)
    (h₁ : l₁.Pairwise (fun a b => f b ≤ f a)) (h₂ : l₂.Pairwise (fun a b => f b ≤ f a))
    (hdist : l₁.Pairwise (fun a b => f a ≠ f b)) : l₁ = l₂ := by
  have b₁ : l₁.Pairwise (fun a b => (decide (f b ≤ f a)) = true) :=
    h₁.imp (fun h => by simpa using h)
  have b₂ : l₂.Pairwise (fun a b => (decide (f b ≤ f a)) = true) :=
    h₂.imp (fun h => by simpa using h)
  refine List.Perm.eq_of_sorted ?_ b₁ b₂ hperm
  intro a b ha hb hab hba
  rw [decide_eq_true_eq] at hab hba
  by_contra hne
  have hsymm : Symmetric (fun a b : Clip => f a ≠ f b) := fun x y h hEq => h hEq.symm
  exact List.Pairwise.forall hsymm hdist ha (hperm.mem_iff.mpr hb) hne (le_antisymm hba hab)

/-- C8 (corrected): when every candidate timestamp parses to a whole
nonnegative number of seconds and the parsed start times and the scores are
pairwise distinct, re-feeding the resolver its own output reproduces that
output exactly.  (Applying the pass twice to the *same* input trivially gives
the same result, the pass being a pure function of its input; but without
these hypotheses the output is not a fixed point: `duration_seconds` is
recomputed from the floored canonical timestamps on the second pass, and
equal-start or fractional-second clips can be dropped — see the
counterexample.) -/
theorem C8_refeed_fixpoint (cfg : SelectorConfig) (clips : List Clip)
    (H1 : ∀ c ∈ clips, ∀ str v, (c.start_time = some str ∨ c.end_time = some str) →
      parse_timestamp str = some v → ∃ n : ℕ, v = ((n : ℕ) : ℚ))
    (H2 : clips.Pairwise (fun c d => ∀ v w,
      c.start_time.bind parse_timestamp = some v →
      d.start_time.bind parse_timestamp = some w → v ≠ w))
    (H3 : clips.Pairwise (fun c d => score c ≠ score d)) :
    dedupe_and_limit_clips cfg (dedupe_and_limit_clips cfg clips) =
      dedupe_and_limit_clips cfg clips := by
  have symNe1 : Symmetric (fun a b : Clip => start_time_s a ≠ start_time_s b) :=
    fun x y h hEq => h hEq.symm
  have symNe2 : Symmetric (fun a b : Clip => score a ≠ score b) :=
    fun x y h hEq => h hEq.symm
  have hpos : ∀ c ∈ clips, ∀ str, c.start_time = some str →
      ∀ v, parse_timestamp str = some v → 0 ≤ v := by
    intro c hc str hstr v hv
    obtain ⟨n, rfl⟩ := H1 c hc str v (Or.inl hstr) hv
    positivity
  have hfix : ∀ c ∈ dedupe_and_limit_clips cfg clips, normalizeClip cfg c = some c :=
    fun c hc => normalized_fixpoint H1 c (dedupe_subset_normalized c hc)
  have hNr : normalize_and_validate_clips cfg (dedupe_and_limit_clips cfg clips) =
      dedupe_and_limit_clips cfg clips := normalize_id_of_fixpoint hfix
  have hStartsR : (dedupe_and_limit_clips cfg clips).Pairwise
      (fun a b => start_time_s a ≠ start_time_s b) :=
    dedupe_pairwise_of_normalized symNe1 (normalized_starts_injective H1 H2)
  have hScoresR : (dedupe_and_limit_clips cfg clips).Pairwise
      (fun a b => score a ≠ score b) :=
    dedupe_pairwise_of_normalized symNe2 (normalized_scores_distinct H3)
  have hPR := dedupe_strict_nonoverlap cfg clips hpos
  have hScoreSorted := dedupe_sorted_score cfg clips
  have hLen := dedupe_length_le cfg clips
  rw [dedupe_and_limit_eq cfg (dedupe_and_limit_clips cfg clips), greedyAccepted, hNr]
  haveI : IsTotal Clip (fun a b => start_time_s a ≤ start_time_s b) :=
    ⟨fun a b => le_total _ _⟩
  haveI : IsTrans Clip (fun a b => start_time_s a ≤ start_time_s b) :=
    ⟨fun a b c h1 h2 => le_trans h1 h2⟩
  have hperm := List.perm_insertionSort (fun a b => start_time_s a ≤ start_time_s b)
    (dedupe_and_limit_clips cfg clips)
  have hSortedS := List.sorted_insertionSort (fun a b => start_time_s a ≤ start_time_s b)
    (dedupe_and_limit_clips cfg clips)
  have hStartsS := (hperm.pairwise_iff (fun hab => symNe1 hab)).mpr hStartsR
  have hPS := (hperm.pairwise_iff (fun hab => ⟨hab.2, hab.1⟩)).mpr hPR
  have hNov : ((dedupe_and_limit_clips cfg clips).insertionSort
      (fun a b => start_time_s a ≤ start_time_s b)).Pairwise
      (fun a b => end_time_s a - 1 ≤ start_time_s b) := by
    refine List.Pairwise.imp₂ ?_ (hSortedS.and hStartsS) hPS
    intro a b hab hP
    exact hP.1 (lt_of_le_of_ne hab.1 hab.2)
  rw [greedyKeep_eq_self _ (-1) hNov.chain' (fun c _ => Or.inl (by norm_num))]
  have hScorePerm : (((dedupe_and_limit_clips cfg clips).insertionSort
      (fun a b => start_time_s a ≤ start_time_s b)).insertionSort
      (fun a b => score b ≤ score a)).Perm (dedupe_and_limit_clips cfg clips) :=
    (List.perm_insertionSort _ _).trans hperm
  haveI : IsTotal Clip (fun a b => score b ≤ score a) := ⟨fun a b => le_total _ _⟩
  haveI : IsTrans Clip (fun a b => score b ≤ score a) :=
    ⟨fun a b c h1 h2 => le_trans h2 h1⟩
  have hScoreSorted2 := List.sorted_insertionSort (fun a b => score b ≤ score a)
    ((dedupe_and_limit_clips cfg clips).insertionSort
      (fun a b => start_time_s a ≤ start_time_s b))
  have hScoresS2 := (hScorePerm.pairwise_iff (fun hab => symNe2 hab)).mpr hScoresR
  rw [sorted_ge_unique hScorePerm hScoreSorted2 hScoreSorted hScoresS2]
  exact List.take_of_length_le hLen

/-! ### Witnesses and counterexamples

Concrete evaluations of the definitions.  The arithmetic on `ℚ` is sealed
behind `@[irreducible]` in the library, so it is unsealed here to let `decide`
evaluate; this affects only the following concrete computations. -/

unseal Rat.add Rat.mul Rat.sub Rat.inv

/-- C1, counterexample to the unrestricted claim: with negative timestamps
(seconds form), the second clip is accepted while overlapping the first,
because the accepted end `-50 < 0` re-arms the `last_end < 0` sentinel. -/
theorem C1_counterexample :
    ¬ (dedupe_and_limit_clips ⟨15, 60, 5⟩
        [⟨some ("-100".toList), some ("-50".toList), none, some 2, none⟩,
          ⟨some ("-99".toList), some ("-49".toList), none, some 1, none⟩]).Pairwise
      (fun a b => (start_time_s a < start_time_s b → end_time_s a - 1 ≤ start_time_s b) ∧
        (start_time_s b < start_time_s a → end_time_s b - 1 ≤ start_time_s a)) := by
  decide

/-- C1, witness for the amended claim at a concrete nonnegative input. -/
theorem C1_witness :
    (dedupe_and_limit_clips ⟨15, 60, 5⟩
      [⟨some ("10".toList), some ("40".toList), none, some 5, none⟩,
        ⟨some ("100".toList), some ("130".toList), none, some 7, none⟩]).Pairwise
      (fun a b => (start_time_s a < start_time_s b → end_time_s a - 1 ≤ start_time_s b) ∧
        (start_time_s b < start_time_s a → end_time_s b - 1 ≤ start_time_s a)) := by
  apply C1_pairwise_nonoverlap
  intro c hc str hstr v hv
  rcases List.mem_cons.mp hc with rfl | hc
  · obtain rfl := Option.some.inj hstr
    have hv' : some ((10 : ℚ)) = some v := Eq.trans (by decide) hv
    obtain rfl := Option.some.inj hv'
    decide
  rcases List.mem_cons.mp hc with rfl | hc
  · obtain rfl := Option.some.inj hstr
    have hv' : some ((100 : ℚ)) = some v := Eq.trans (by decide) hv
    obtain rfl := Option.some.inj hv'
    decide
  · simp at hc

/-- C3, witness: a clip with in-range timestamps whose recomputed duration is
below `min_duration` is dropped by normalization. -/
theorem C3_witness :
    normalizeClip ⟨15, 60, 5⟩
      ⟨some ("0".toList), some ("10".toList), some 10, some 1, none⟩ = none :=
  (C3_duration_bounds ⟨15, 60, 5⟩ []).2 _ ("0".toList) ("10".toList) 0 10
    rfl rfl (by decide) (by decide) (by decide)

/-- C4, witness: three half-open words, query inside the second, window of
two: a full-size window `[w0, w1]` with the highlighted index `1`. -/
theorem C4_witness :
    get_active_words
      [⟨"a".toList, 0, 1⟩, ⟨"b".toList, 1, 2⟩, ⟨"c".toList, 2, 3⟩] (3 / 2) 2 =
      ([⟨"a".toList, 0, 1⟩, ⟨"b".toList, 1, 2⟩], 1) := by
  obtain ⟨ws0, we, ws, h1, h2, h3, h4, h5⟩ :=
    (C4_word_window [⟨"a".toList, 0, 1⟩, ⟨"b".toList, 1, 2⟩, ⟨"c".toList, 2, 3⟩]
        (3 / 2) 2 (by decide) (by decide)).2 1 ⟨"b".toList, 1, 2⟩ (by decide) (by decide)
      (by
        intro j u hj hu
        interval_cases j
        have hu' : some (⟨"a".toList, 0, 1⟩ : Word) = some u := Eq.trans (by decide) hu
        obtain rfl := Option.some.inj hu'
        decide)
  subst h1
  subst h2
  subst h3
  rw [h4]
  decide

/-- C5, witness: nine samples clustered at `(100, 100)` and one outlier at
`(10000, 10000)` stabilise to `(100, 100)` (the median, unskewed by the
outlier), and the empty sample list on a 1920×1080 frame stabilises to the
geometric centre `(960, 540)`. -/
theorem C5_witness :
    track_face_center
      [⟨100, 100, "pose_keypoints".toList⟩, ⟨100, 100, "pose_keypoints".toList⟩,
        ⟨100, 100, "pose_keypoints".toList⟩, ⟨100, 100, "pose_keypoints".toList⟩,
        ⟨100, 100, "pose_keypoints".toList⟩, ⟨100, 100, "pose_keypoints".toList⟩,
        ⟨100, 100, "pose_keypoints".toList⟩, ⟨100, 100, "pose_keypoints".toList⟩,
        ⟨100, 100, "bbox_heuristic".toList⟩, ⟨10000, 10000, "bbox_heuristic".toList⟩]
      1920 1080 = (100, 100) ∧
    track_face_center [] 1920 1080 = (960, 540) := by
  constructor
  · have h := (C5_stabilize_median
      [⟨100, 100, "pose_keypoints".toList⟩, ⟨100, 100, "pose_keypoints".toList⟩,
        ⟨100, 100, "pose_keypoints".toList⟩, ⟨100, 100, "pose_keypoints".toList⟩,
        ⟨100, 100, "pose_keypoints".toList⟩, ⟨100, 100, "pose_keypoints".toList⟩,
        ⟨100, 100, "pose_keypoints".toList⟩, ⟨100, 100, "pose_keypoints".toList⟩,
        ⟨100, 100, "bbox_heuristic".toList⟩, ⟨10000, 10000, "bbox_heuristic".toList⟩]
      1920 1080).1 (by decide)
    rw [h]
    decide
  · have h := (C5_stabilize_median [] 1920 1080).2 rfl (by decide) (by decide)
    rw [h]
    decide

/-- C6, witness: positive dimensions are kept, non-positive ones replaced by
the 4K default. -/
theorem C6_witness :
    effective_dims 1920 1080 = (1920, 1080) ∧ effective_dims 0 1080 = (3840, 2160) :=
  ⟨(C6_crop_containment 500 300 1920 1080).2.2.2.2.2.1 (by decide),
    (C6_crop_containment 500 300 0 1080).2.2.2.2.2.2 (by decide)⟩

/-- C7, witness: a list whose candidates all fail normalization (unparsable
timestamps, missing keys) resolves to the empty selection. -/
theorem C7_witness :
    dedupe_and_limit_clips ⟨15, 60, 5⟩
      [⟨some ("junk".toList), some ("junk".toList), none, some 9, none⟩,
        ⟨none, some ("40".toList), none, some 8, none⟩,
        ⟨some ("".toList), some ("40".toList), none, some 7, none⟩] = [] :=
  C7_invalid_filtered _ _ (by decide)

/-- C8, counterexample to the unrestricted claim: a candidate with a
fractional end time (`15.6` s) survives the first pass with
`duration_seconds = round(15.6) = 16`, but re-feeding the output recomputes
the duration from the floored timestamps (`15`), so the result changes. -/
theorem C8_counterexample :
    dedupe_and_limit_clips ⟨15, 60, 5⟩
        (dedupe_and_limit_clips ⟨15, 60, 5⟩
          [⟨some ("0".toList), some ("15.6".toList), none, some 5, none⟩]) ≠
      dedupe_and_limit_clips ⟨15, 60, 5⟩
        [⟨some ("0".toList), some ("15.6".toList), none, some 5, none⟩] := by
  decide

/-- C8, witness for the amended claim: whole-second candidates with distinct
starts and scores are reproduced exactly by a second pass. -/
theorem C8_witness :
    dedupe_and_limit_clips ⟨15, 60, 5⟩
        (dedupe_and_limit_clips ⟨15, 60, 5⟩
          [⟨some ("0".toList), some ("30".toList), none, some 5, none⟩,
            ⟨some ("100".toList), some ("140".toList), none, some 3, none⟩]) =
      dedupe_and_limit_clips ⟨15, 60, 5⟩
        [⟨some ("0".toList), some ("30".toList), none, some 5, none⟩,
          ⟨some ("100".toList), some ("140".toList), none, some 3, none⟩] := by
  apply C8_refeed_fixpoint
  · intro c hc str v hor hv
    rcases List.mem_cons.mp hc with rfl | hc
    · rcases hor with hstr | hstr
      · obtain rfl := Option.some.inj hstr
        have hv' : some (((0 : ℕ) : ℚ)) = some v := Eq.trans (by decide) hv
        exact ⟨0, (Option.some.inj hv').symm⟩
      · obtain rfl := Option.some.inj hstr
        have hv' : some (((30 : ℕ) : ℚ)) = some v := Eq.trans (by decide) hv
        exact ⟨30, (Option.some.inj hv').symm⟩
    rcases List.mem_cons.mp hc with rfl | hc
    · rcases hor with hstr | hstr
      · obtain rfl := Option.some.inj hstr
        have hv' : some (((100 : ℕ) : ℚ)) = some v := Eq.trans (by decide) hv
        exact ⟨100, (Option.some.inj hv').symm⟩
      · obtain rfl := Option.some.inj hstr
        have hv' : some (((140 : ℕ) : ℚ)) = some v := Eq.trans (by decide) hv
        exact ⟨140, (Option.some.inj hv').symm⟩
    · simp at hc
  · refine List.pairwise_cons.mpr ⟨?_, List.pairwise_cons.mpr ⟨?_, List.Pairwise.nil⟩⟩
    · intro d hd v w hv hw
      obtain rfl : d = ⟨some ("100".toList), some ("140".toList), none, some 3, none⟩ := by
        simpa using hd
      have hv' : some ((0 : ℚ)) = some v := Eq.trans (by decide) hv
      have hw' : some ((100 : ℚ)) = some w := Eq.trans (by decide) hw
      obtain rfl := Option.some.inj hv'
      obtain rfl := Option.some.inj hw'
      decide
    · intro d hd
      simp at hd
  · decide

/-- C9, witness: the candidate `("90", "130")` in plain-seconds form and the
candidate `("00:01:30", "00:02:10")` in clock form normalize to the same
retained record. -/
theorem C9_witness :
    normalizeClip ⟨15, 60, 5⟩
        ⟨some ("90".toList), some ("130".toList), none, some 4, some ("t".toList)⟩ =
      normalizeClip ⟨15, 60, 5⟩
        ⟨some ("00:01:30".toList), some ("00:02:10".toList), none, some 4,
          some ("t".toList)⟩ ∧
    (normalizeClip ⟨15, 60, 5⟩
      ⟨some ("90".toList), some ("130".toList), none, some 4, some ("t".toList)⟩).isSome :=
  C9_seconds_form ⟨15, 60, 5⟩ _ _ ("90".toList) ("130".toList) ("00:01:30".toList)
    ("00:02:10".toList) 90 130 rfl rfl rfl rfl rfl rfl rfl
    (by decide) (by decide) (by decide) (by decide) (by decide) (by decide) (by decide)

/-- C10, witness: formatting then parsing `7.5` seconds yields exactly its
floor, `7` seconds. -/
theorem C10_witness :
    parse_timestamp (format_timestamp (15 / 2)) = some ((⌊(15 / 2 : ℚ)⌋ : ℤ) : ℚ) ∧
      ((⌊(15 / 2 : ℚ)⌋ : ℤ) : ℚ) ≤ 15 / 2 :=
  C10_format_parse_floor (15 / 2) (by decide)

end ClipApp
